import Mathlib

/-!
Verification development for the distributed-llama checkpoint converter
(`converter/converter.py`).  The Python source is shallowly embedded:

* Python floats are modelled by exact rationals (`ℚ`); `int(x)` is
  truncation toward zero (`ratTrunc`), `x // y` is floor division.
* The opaque byte encoders `struct.pack('e'| 'f')` (IEEE-754 half/single
  serialisation of one number) are abstracted as parameters
  `half pack2 pack4 : ℚ → List ℕ`, constrained only by their output
  length where byte counts matter.
* Python `raise` is modelled by `Except ConvErr`; the distinct Python
  exception classes (KeyError, ValueError, IndexError, AssertionError,
  NameError, plain Exception) are distinguished so that error-kind claims
  can be settled.
* Python dicts are insertion-ordered association lists with unique keys;
  `d[k]`, `d[k] = v`, `del d[k]` are `pyGetItem`, `dictSet`, `pyDelItem`.
* File output is a log of positioned writes `(offset, bytes)`; `seek`
  followed by `write` appends one entry.
-/

namespace Converter

/-- Python exception kinds raised by the converter. -/
inductive ConvErr where
  | exception : String → ConvErr
  | keyError : String → ConvErr
  | valueError : String → ConvErr
  | indexError : ConvErr
  | assertionError : ConvErr
  | nameError : String → ConvErr
  deriving DecidableEq, Repr

instance {ε α : Type} [DecidableEq ε] [DecidableEq α] :
    DecidableEq (Except ε α) := fun x y =>
  match x, y with
  | .ok a, .ok b =>
    if h : a = b then isTrue (by rw [h])
    else isFalse (by intro he; cases he; exact h rfl)
  | .error a, .error b =>
    if h : a = b then isTrue (by rw [h])
    else isFalse (by intro he; cases he; exact h rfl)
  | .ok _, .error _ => isFalse (by intro he; cases he)
  | .error _, .ok _ => isFalse (by intro he; cases he)

/-- Python `int(q)`: truncation toward zero of a rational. -/
def ratTrunc (q : ℚ) : ℤ := q.num.tdiv q.den

/-- Python `np.max(group)` for a nonempty list (`0` on the empty list,
which the source never hits). -/
def gmax : List ℚ → ℚ
  | [] => 0
  | h :: t => t.foldl max h

/-- Python `np.min(group)`. -/
def gmin : List ℚ → ℚ
  | [] => 0
  | h :: t => t.foldl min h

/-- `np.where(-gmin > gmax, gmin, gmax)` for one group
(converter.py line 17). -/
def q40absMax (g : List ℚ) : ℚ :=
  if -(gmin g) > gmax g then gmin g else gmax g

/-- `delta = groupAbsMax / -8` (converter.py line 22). -/
def q40delta (g : List ℚ) : ℚ := q40absMax g / (-8)

/-- `id = (1.0 / delta) if delta else 0` (converter.py line 23):
the inverse scale, `0` when `delta` is `0`. -/
def q40invScale (g : List ℚ) : ℚ :=
  if q40delta g = 0 then 0 else 1 / q40delta g

/-- One packed byte of a Q40 group (converter.py lines 29-33):
`x0 = group[i] * id + 8.5`, `x1 = group[i + 16] * id + 8.5`,
`xi0 = min(15, int(x0))`, `xi1 = min(15, int(x1))`,
`b = (xi0 & 0xF) | ((xi1 & 0xF) << 4)`.  On Python ints `& 0xF` is
`mod 16` (also for negatives, via two's complement), and the bitwise or
of the two disjoint nibbles is their sum. -/
def q40byte (g : List ℚ) (i : ℕ) : ℕ :=
  ((min 15 (ratTrunc (g.getD i 0 * q40invScale g + 17/2))).emod 16 +
    (min 15 (ratTrunc (g.getD (i + 16) 0 * q40invScale g + 17/2))).emod 16 *
      16).toNat

/-- `x.reshape(-1, 32)` (converter.py line 14): the consecutive groups of
32 values. -/
def chunks32 (x : List ℚ) : List (List ℚ) :=
  (List.range (x.length / 32)).map (fun i => (x.drop (32 * i)).take 32)

/-- The 18 bytes emitted for one group (converter.py lines 25-36): the
half-precision serialisation of `delta` followed by 16 packed bytes.
`half` abstracts `struct.pack('e', np.float16(delta))`. -/
def q40Group (half : ℚ → List ℕ) (g : List ℚ) : List ℕ :=
  half (q40delta g) ++ (List.range 16).map (q40byte g)

/-- `quantizeQ40(x, file)` (converter.py lines 10-38): asserts the length
is a multiple of 32, writes the per-group buffers in order, and returns
the byte counter `nBytes` (2 + 16 per group). -/
def quantizeQ40 (half : ℚ → List ℕ) (x : List ℚ) :
    Except ConvErr (List ℕ × ℤ) :=
  if x.length % 32 = 0 then
    .ok ((chunks32 x).flatMap (q40Group half), 18 * ((x.length : ℤ) / 32))
  else .error .assertionError

/-- `exportTensor(file, tensor, floatType)` (converter.py lines 40-57) on
the flattened data `d` of the tensor: returns the bytes written and the
Python return value (the byte count).  `pack2`/`pack4` abstract the
per-element half/single-precision serialisation (including the value
rounding performed by the dtype cast). -/
def exportTensor (pack4 pack2 half : ℚ → List ℕ) (floatType : String)
    (d : List ℚ) : Except ConvErr (List ℕ × ℤ) :=
  if floatType = "float16" then
    let b := d.flatMap pack2
    .ok (b, (b.length : ℤ))
  else if floatType = "float32" then
    let b := d.flatMap pack4
    .ok (b, (b.length : ℤ))
  else if floatType = "q40" then
    quantizeQ40 half d
  else .error (.exception "Unknown float type")

/-- `getBytes(nNumbers, targetFloatType)` (converter.py lines 89-96).
The argument can be a Python float (`kvDim` is produced by true
division), so it is taken as a rational; each branch applies `int(...)`,
and `//` is floor division. -/
def getBytes (n : ℚ) (t : String) : Except ConvErr ℤ :=
  if t = "float32" then .ok (ratTrunc (n * 4))
  else if t = "float16" then .ok (ratTrunc (n * 2))
  else if t = "q40" then .ok (⌊n / 32⌋ * 18)
  else .error (.exception "Unknown float type")

/-- Characters of a string split on `'.'` (every maximal dot-free run,
keeping empty runs, as Python `str.split('.')` does). -/
def splitDotChars : List Char → List (List Char)
  | [] => [[]]
  | c :: rest =>
    let r := splitDotChars rest
    if c = '.' then [] :: r
    else
      match r with
      | [] => [[c]]
      | h :: t => (c :: h) :: t

/-- Python `'.'.join`-style re-joining used to rebuild the tail of a
maxsplit. -/
def joinDots : List String → String
  | [] => ""
  | [s] => s
  | s :: rest => s ++ "." ++ joinDots rest

/-- Python `layerName.split('.', 2)` (converter.py line 163): at most two
splits, the third component keeps its inner dots. -/
def split2 (s : String) : List String :=
  match (splitDotChars s.toList).map (fun l => String.mk l) with
  | a :: b :: c :: rest => [a, b, joinDots (c :: rest)]
  | l => l

/-- Python `str.startswith`. -/
def strStartsWith (s p : String) : Bool :=
  decide (s.toList.take p.toList.length = p.toList)

/-- Python `str.endswith`. -/
def strEndsWith (s p : String) : Bool :=
  decide (s.toList.drop (s.toList.length - p.toList.length) = p.toList)

/-- The axis-1 test of `toDict` (converter.py lines 66-70). -/
def isAxis1 (name : String) : Bool :=
  strStartsWith name "tok_embeddings." ||
  strEndsWith name ".attention.wo.weight" ||
  strEndsWith name ".feed_forward.w2.weight"

/-- Python `int(s)` on the decimal strings fed to it by the converter
(an optional sign followed by digits); anything else raises ValueError. -/
def digitVal (c : Char) : Option ℕ :=
  if '0' ≤ c ∧ c ≤ '9' then some (c.toNat - 48) else none

/-- Accumulating decimal parse of a digit run. -/
def parseDigits (l : List Char) : Option ℕ :=
  if l.isEmpty then none
  else l.foldl (fun acc c =>
    match acc, digitVal c with
    | some a, some d => some (a * 10 + d)
    | _, _ => none) (some 0)

/-- Python `int(s)` returning `none` where CPython raises ValueError. -/
def pyParseInt (s : String) : Option ℤ :=
  match s.toList with
  | '-' :: rest => (parseDigits rest).map (fun n => -(n : ℤ))
  | l => (parseDigits l).map (fun n => (n : ℤ))

/-- A torch tensor: its shape and its row-major flattened data
(`tensor.view(-1)`). -/
structure Tensor where
  shape : List ℕ
  data : List ℚ
  deriving DecidableEq, Repr

/-- A checkpoint shard: an insertion-ordered dict from tensor name to
tensor. -/
abbrev Model := List (String × Tensor)

/-- First value bound to a key in an ordered dict. -/
def dictGet {α : Type} : List (String × α) → String → Option α
  | [], _ => none
  | (k', v) :: rest, k => if k' = k then some v else dictGet rest k

/-- Python `d[k]`: KeyError when absent. -/
def pyGetItem {α : Type} (m : List (String × α)) (k : String) :
    Except ConvErr α :=
  match dictGet m k with
  | some v => .ok v
  | none => .error (.keyError k)

/-- Python `d[k] = v`: replace in place, else append. -/
def dictSet {α : Type} : List (String × α) → String → α → List (String × α)
  | [], k, v => [(k, v)]
  | (k', v') :: rest, k, v =>
    if k' = k then (k, v) :: rest else (k', v') :: dictSet rest k v

/-- Python `del d[k]`: KeyError when absent. -/
def pyDelItem {α : Type} : List (String × α) → String →
    Except ConvErr (List (String × α))
  | [], k => .error (.keyError k)
  | (k', v') :: rest, k =>
    if k' = k then .ok rest
    else
      match pyDelItem rest k with
      | .error e => .error e
      | .ok r => .ok ((k', v') :: r)

/-- Python `[model[name] for model in models]` (converter.py line 62). -/
def lookupAll : List Model → String → Except ConvErr (List Tensor)
  | [], _ => .ok []
  | m :: rest, k =>
    match pyGetItem m k with
    | .error e => .error e
    | .ok t =>
      match lookupAll rest k with
      | .error e => .error e
      | .ok ts => .ok (t :: ts)

/-- Python `for model in models: del model[name]` (converter.py
lines 73-74). -/
def deleteAll : List Model → String → Except ConvErr (List Model)
  | [], _ => .ok []
  | m :: rest, k =>
    match pyDelItem m k with
    | .error e => .error e
    | .ok m' =>
      match deleteAll rest k with
      | .error e => .error e
      | .ok ms => .ok (m' :: ms)

/-- `torch.cat(tensors, dim)` on well-formed inputs: the shape grows
along `d`, and the data interleaves each tensor's slabs of the
dimensions after `d` in row-major order. -/
def torchCat (ts : List Tensor) (d : ℕ) : Tensor :=
  match ts with
  | [] => ⟨[], []⟩
  | t0 :: _ =>
    let newShape := t0.shape.set d (ts.map (fun t => t.shape.getD d 0)).sum
    let outer := (t0.shape.take d).prod
    let data := (List.range outer).flatMap (fun o => ts.flatMap (fun t =>
      let slab := (t.shape.drop d).prod
      (t.data.drop (o * slab)).take slab))
    ⟨newShape, data⟩

/-- The loop body of `toDict` (converter.py lines 61-74), folded over the
snapshot of the first model's keys, threading the mutated shard dicts. -/
def toDictGo : List String → List Model → Model →
    Except ConvErr (Model × List Model)
  | [], models, sd => .ok (sd, models)
  | name :: names, models, sd =>
    match lookupAll models name with
    | .error e => .error e
    | .ok [] => .error .indexError
    | .ok (t0 :: trest) =>
      if trest.length = 0 ∨ t0.shape.length = 1 then
        toDictGo names models (dictSet sd name t0)
      else
        match deleteAll models name with
        | .error e => .error e
        | .ok models' =>
          toDictGo names models' (dictSet sd name
            (torchCat (t0 :: trest) (if isAxis1 name then 1 else 0)))

/-- `toDict(models)` (converter.py lines 59-75): returns the merged state
dict together with the shard dicts as they remain after the in-place
`del`s. -/
def toDict (models : List Model) : Except ConvErr (Model × List Model) :=
  match models with
  | [] => .error .indexError
  | m0 :: _ => toDictGo (m0.map (fun p => p.1)) models []

/-- The fields read from `params.json`; `n_kv_heads` and `max_seq_len`
may be absent. -/
structure ParamsIn where
  dim : ℤ
  n_layers : ℤ
  n_heads : ℤ
  n_kv_heads : Option ℤ
  vocab_size : ℤ
  max_seq_len : Option ℤ
  deriving DecidableEq, Repr

/-- The params dict after the mutations of converter.py lines 132-136
(`hidden_dim` is discovered later, from the first shard). -/
structure Params where
  dim : ℤ
  n_layers : ℤ
  n_heads : ℤ
  n_kv_heads : ℤ
  vocab_size : ℤ
  head_size : ℚ
  max_seq_len : ℤ
  deriving DecidableEq, Repr

/-- converter.py lines 130-136: vocab check, the truthiness-based
`n_kv_heads` default (`params.get('n_kv_heads') or params['n_heads']`),
`head_size = dim / n_heads` (true division), and the unconditional
`params['max_seq_len'] = 2048`. -/
def resolveParams (p : ParamsIn) : Except ConvErr Params :=
  if p.vocab_size < 1 then .error (.exception "Invalid vocab size")
  else .ok
    { dim := p.dim
      n_layers := p.n_layers
      n_heads := p.n_heads
      n_kv_heads :=
        match p.n_kv_heads with
        | some k => if k = 0 then p.n_heads else k
        | none => p.n_heads
      vocab_size := p.vocab_size
      head_size := (p.dim : ℚ) / (p.n_heads : ℚ)
      max_seq_len := 2048 }

/-- Little-endian bytes of a 32-bit signed integer as `struct.pack('i')`
stores it. -/
def int32LE (z : ℤ) : List ℕ :=
  let n := (z % 4294967296).toNat
  [n % 256, n / 256 % 256, n / 65536 % 256, n / 16777216 % 256]

/-- The seven header integers in order (converter.py lines 78-85). -/
def headerInts (p : Params) (hiddenDim : ℤ) : List ℤ :=
  [p.dim, hiddenDim, p.n_layers, p.n_heads, p.n_kv_heads, p.vocab_size,
   p.max_seq_len]

/-- `writeHeader(outFile, p)` (converter.py lines 77-87): the 28 bytes of
`struct.pack('iiiiiii', ...)`. -/
def writeHeader (p : Params) (hiddenDim : ℤ) : List ℕ :=
  (headerInts p hiddenDim).flatMap int32LE

/-- Offset bookkeeping of `getBlockOffsets` (converter.py lines 121-124):
turns the ordered size entries into `'<key>_offset'` entries plus the
running total. -/
def buildOffsets : List (String × ℤ) → ℤ → List (String × ℤ) × ℤ
  | [], total => ([], total)
  | (k, sz) :: rest, total =>
    let r := buildOffsets rest (total + sz)
    ((k ++ "_offset", total) :: r.1, r.2)

/-- `getBlockOffsets(params, targetFloatType)` (converter.py
lines 98-126) as the ordered dict it builds: the nine per-layer field
sizes, their offsets, and `'_total'`.  `kvDim` is a Python float (true
division). -/
def getBlockOffsets (p : Params) (hiddenDim : ℤ) (target : String) :
    Except ConvErr (List (String × ℤ)) :=
  let kvDim : ℚ := (p.dim : ℚ) * (p.n_kv_heads : ℚ) / (p.n_heads : ℚ)
  match getBytes (p.dim : ℚ) "float32" with
  | .error e => .error e
  | .ok rms =>
  match getBytes (p.dim : ℚ) "float32" with
  | .error e => .error e
  | .ok ffn =>
  match getBytes ((p.dim : ℚ) * (p.dim : ℚ)) target with
  | .error e => .error e
  | .ok q =>
  match getBytes ((p.dim : ℚ) * kvDim) target with
  | .error e => .error e
  | .ok k =>
  match getBytes ((p.dim : ℚ) * kvDim) target with
  | .error e => .error e
  | .ok v =>
  match getBytes ((p.dim : ℚ) * (p.dim : ℚ)) target with
  | .error e => .error e
  | .ok wo =>
  match getBytes ((p.dim : ℚ) * (hiddenDim : ℚ)) target with
  | .error e => .error e
  | .ok w1 =>
  match getBytes ((hiddenDim : ℚ) * (p.dim : ℚ)) target with
  | .error e => .error e
  | .ok w2 =>
  match getBytes ((p.dim : ℚ) * (hiddenDim : ℚ)) target with
  | .error e => .error e
  | .ok w3 =>
    let sizes : List (String × ℤ) :=
      [("attention_norm.weight", rms), ("ffn_norm.weight", ffn),
       ("attention.wq.weight", q), ("attention.wk.weight", k),
       ("attention.wv.weight", v), ("attention.wo.weight", wo),
       ("feed_forward.w1.weight", w1), ("feed_forward.w2.weight", w2),
       ("feed_forward.w3.weight", w3)]
    let r := buildOffsets sizes 0
    .ok (sizes ++ r.1 ++ [("_total", r.2)])

/-- `ropeBytes` (converter.py line 156):
`int(getBytes(max_seq_len * head_size / 2, 'float32') * 2)`. -/
def ropeBytesCalc (p : Params) : Except ConvErr ℤ :=
  match getBytes ((p.max_seq_len : ℚ) * p.head_size / 2) "float32" with
  | .error e => .error e
  | .ok g => .ok (g * 2)

/-- The layout context computed once, when the header is written
(converter.py lines 151-157). -/
structure HeaderCtx where
  headerOffset : ℤ
  blockOffsets : List (String × ℤ)
  afterBlocksOffset : ℤ
  ropeBytes : ℤ
  deriving DecidableEq, Repr

/-- The mutable run state: the positioned writes done so far, the
`layerProcessedBytes` dict (`-1` is the completion sentinel), the last
value of the Python local `layerSize` (unbound at first), and the header
context once written. -/
structure ConvState where
  writes : List (ℤ × List ℕ)
  progress : List (String × ℤ)
  lastLayerSize : Option ℤ
  header : Option HeaderCtx
  deriving DecidableEq, Repr

/-- The per-run constants of `convert` (converter.py lines 128-143). -/
structure ConvCtx where
  pack4 : ℚ → List ℕ
  pack2 : ℚ → List ℕ
  half : ℚ → List ℕ
  target : String
  params : Params
  tokenEmbeddingBytes : ℤ
  rmsFinalBytes : ℤ
  wclsBytes : ℤ

/-- converter.py lines 196-201 plus the final dict store: the progress
value becomes `-1` exactly on equality with `layerSize`, the optional
positioned write is appended, and the Python local `layerSize` keeps its
new value. -/
def finishName (st : ConvState) (name : String) (wr : Option (ℤ × List ℕ))
    (pb ls : ℤ) : ConvState :=
  { st with
    writes := st.writes ++ wr.toList
    progress := dictSet st.progress name (if pb = ls then -1 else pb)
    lastLayerSize := some ls }

/-- One iteration of the tensor loop (converter.py lines 159-201) for a
named tensor: the `.get(name) or 0` progress read, the `-1` skip, the
name dispatch with its offset arithmetic, the positioned write, and the
progress update. -/
def processName (c : ConvCtx) (hc : HeaderCtx) (st : ConvState)
    (name : String) (t : Tensor) : Except ConvErr ConvState :=
  let pb0 := (dictGet st.progress name).getD 0
  if pb0 = -1 then .ok st
  else if (split2 name).headD "" = "layers" then
    match split2 name with
    | _ :: idxStr :: rest =>
      match pyParseInt idxStr with
      | none => .error (.valueError idxStr)
      | some index =>
        match rest.head? with
        | none => .error .indexError
        | some fieldName =>
          match pyGetItem hc.blockOffsets fieldName with
          | .error e => .error e
          | .ok layerSize =>
          match pyGetItem hc.blockOffsets (fieldName ++ "_offset") with
          | .error e => .error e
          | .ok layerOffset =>
          match pyGetItem hc.blockOffsets "_total" with
          | .error e => .error e
          | .ok total =>
            let tensorOffset := hc.headerOffset + c.tokenEmbeddingBytes +
              total * index + layerOffset + pb0
            let ft := if fieldName = "attention_norm.weight" ∨
                fieldName = "ffn_norm.weight" then "float32" else c.target
            match exportTensor c.pack4 c.pack2 c.half ft t.data with
            | .error e => .error e
            | .ok (bytes, n) =>
              .ok (finishName st name (some (tensorOffset, bytes))
                (pb0 + n) layerSize)
    | _ => .error .indexError
  else if name = "tok_embeddings.weight" then
    match exportTensor c.pack4 c.pack2 c.half "float32" t.data with
    | .error e => .error e
    | .ok (bytes, n) =>
      .ok (finishName st name (some (hc.headerOffset + pb0, bytes))
        (pb0 + n) c.tokenEmbeddingBytes)
  else if name = "norm.weight" then
    match exportTensor c.pack4 c.pack2 c.half "float32" t.data with
    | .error e => .error e
    | .ok (bytes, n) =>
      .ok (finishName st name (some (hc.afterBlocksOffset + pb0, bytes))
        (pb0 + n) c.rmsFinalBytes)
  else if name = "rope.freqs" then
    match st.lastLayerSize with
    | none => .error (.nameError "layerSize")
    | some ls => .ok (finishName st name none (-1) ls)
  else if name = "output.weight" then
    match exportTensor c.pack4 c.pack2 c.half c.target t.data with
    | .error e => .error e
    | .ok (bytes, n) =>
      .ok (finishName st name
        (some (hc.afterBlocksOffset + c.rmsFinalBytes + hc.ropeBytes + pb0,
          bytes)) (pb0 + n) c.wclsBytes)
  else .error (.exception ("Unknown layer: " ++ name))

/-- The tensor loop over one merged shard dict, in insertion order. -/
def processNames (c : ConvCtx) (hc : HeaderCtx) :
    ConvState → List (String × Tensor) → Except ConvErr ConvState
  | st, [] => .ok st
  | st, (name, t) :: rest =>
    match processName c hc st name t with
    | .error e => .error e
    | .ok st' => processNames c hc st' rest

/-- One iteration of the shard loop (converter.py lines 148-201):
merge the shard, on the first shard discover `hidden_dim`, write the
header at offset 0 and fix the layout, then run the tensor loop. -/
def processShard (c : ConvCtx) (st : ConvState) (shard : Model) :
    Except ConvErr ConvState :=
  match toDict [shard] with
  | .error e => .error e
  | .ok (modelDict, _) =>
    match st.header with
    | some hc => processNames c hc st modelDict
    | none =>
      match pyGetItem modelDict "layers.0.feed_forward.w1.weight" with
      | .error e => .error e
      | .ok w1 =>
        match w1.shape.head? with
        | none => .error .indexError
        | some h0 =>
          let hiddenDim : ℤ := h0
          let headerBytes := writeHeader c.params hiddenDim
          let headerOffset : ℤ := headerBytes.length
          match getBlockOffsets c.params hiddenDim c.target with
          | .error e => .error e
          | .ok blockOffsets =>
            match pyGetItem blockOffsets "_total" with
            | .error e => .error e
            | .ok total =>
              match ropeBytesCalc c.params with
              | .error e => .error e
              | .ok ropeBytes =>
                let hc : HeaderCtx :=
                  ⟨headerOffset, blockOffsets,
                   headerOffset + c.tokenEmbeddingBytes +
                     total * c.params.n_layers, ropeBytes⟩
                processNames c hc
                  { st with
                    writes := st.writes ++ [(0, headerBytes)]
                    header := some hc }
                  modelDict

/-- The shard loop. -/
def processShards (c : ConvCtx) :
    ConvState → List Model → Except ConvErr ConvState
  | st, [] => .ok st
  | st, shard :: rest =>
    match processShard c st shard with
    | .error e => .error e
    | .ok st' => processShards c st' rest

/-- The observable outcome of a run: the positioned writes, the final
progress dict, and the rope reservation size once fixed. -/
structure ConvResult where
  writes : List (ℤ × List ℕ)
  progress : List (String × ℤ)
  ropeBytes : Option ℤ
  deriving DecidableEq, Repr

/-- `convert(modelPath, outputPath, targetFloatType)` (converter.py
lines 128-208) on already-loaded params and shard dicts: resolve params,
compute the fixed byte counts, then fold the shard loop. -/
def convert (pack4 pack2 half : ℚ → List ℕ) (pin : ParamsIn)
    (target : String) (shards : List Model) : Except ConvErr ConvResult :=
  match resolveParams pin with
  | .error e => .error e
  | .ok p =>
    match getBytes ((p.vocab_size : ℚ) * (p.dim : ℚ)) "float32" with
    | .error e => .error e
    | .ok tokenEmbeddingBytes =>
      match getBytes ((p.dim : ℚ)) "float32" with
      | .error e => .error e
      | .ok rmsFinalBytes =>
        match getBytes ((p.vocab_size : ℚ) * (p.dim : ℚ)) target with
        | .error e => .error e
        | .ok wclsBytes =>
          let c : ConvCtx :=
            ⟨pack4, pack2, half, target, p, tokenEmbeddingBytes,
             rmsFinalBytes, wclsBytes⟩
          match processShards c ⟨[], [], none, none⟩ shards with
          | .error e => .error e
          | .ok st =>
            .ok ⟨st.writes, st.progress, st.header.map (·.ropeBytes)⟩

/-! Support lemmas. -/

theorem ratTrunc_natCast (n : ℕ) : ratTrunc (n : ℚ) = n := by
  unfold ratTrunc
  rw [Rat.num_natCast, Rat.den_natCast]
  simp [Int.tdiv]

theorem ratTrunc_nonneg {q : ℚ} (h : 0 ≤ q) : 0 ≤ ratTrunc q :=
  Int.tdiv_nonneg (Rat.num_nonneg.mpr h) (Int.natCast_nonneg q.den)

theorem flatMap_const_length {α : Type} (f : α → List ℕ) (k : ℕ)
    (hf : ∀ a, (f a).length = k) : ∀ l : List α,
    (l.flatMap f).length = k * l.length
  | [] => by simp
  | a :: l => by
    simp [List.flatMap_cons, hf a, flatMap_const_length f k hf l, Nat.mul_succ,
      Nat.add_comm]

theorem chunks32_length (x : List ℚ) :
    (chunks32 x).length = x.length / 32 := by
  simp [chunks32]

theorem chunks32_mem_length {x : List ℚ} {g : List ℚ}
    (hg : g ∈ chunks32 x) : g.length = 32 := by
  simp only [chunks32, List.mem_map, List.mem_range] at hg
  obtain ⟨i, hi, rfl⟩ := hg
  have h32 : 32 * i + 32 ≤ x.length := by
    have := Nat.div_mul_le_self x.length 32
    have hi' : i + 1 ≤ x.length / 32 := hi
    calc 32 * i + 32 = (i + 1) * 32 := by ring
    _ ≤ x.length / 32 * 32 := Nat.mul_le_mul_right 32 hi'
    _ ≤ x.length := Nat.div_mul_le_self x.length 32
  simp [List.length_take, List.length_drop]
  omega

theorem q40Group_length {half : ℚ → List ℕ}
    (hh : ∀ q, (half q).length = 2) (g : List ℚ) :
    (q40Group half g).length = 18 := by
  simp [q40Group, hh]

theorem init_le_foldl_max : ∀ (t : List ℚ) (a : ℚ), a ≤ t.foldl max a
  | [], _ => le_refl _
  | b :: t, a => le_trans (le_max_left a b) (init_le_foldl_max t (max a b))

theorem mem_le_foldl_max : ∀ (t : List ℚ) (a v : ℚ), v ∈ t → v ≤ t.foldl max a
  | b :: t, a, v, hv => by
    rcases List.mem_cons.mp hv with h | h
    · subst h
      exact le_trans (le_max_right a v) (init_le_foldl_max t (max a v))
    · exact mem_le_foldl_max t (max a b) v h

theorem foldl_min_le_init : ∀ (t : List ℚ) (a : ℚ), t.foldl min a ≤ a
  | [], _ => le_refl _
  | b :: t, a => le_trans (foldl_min_le_init t (min a b)) (min_le_left a b)

theorem foldl_min_le_mem : ∀ (t : List ℚ) (a v : ℚ), v ∈ t → t.foldl min a ≤ v
  | b :: t, a, v, hv => by
    rcases List.mem_cons.mp hv with h | h
    · subst h
      exact le_trans (foldl_min_le_init t (min a v)) (min_le_right a v)
    · exact foldl_min_le_mem t (min a b) v h

theorem le_gmax_of_mem {g : List ℚ} {v : ℚ} (hv : v ∈ g) : v ≤ gmax g := by
  match g, hv with
  | h :: t, hv =>
    rcases List.mem_cons.mp hv with h' | h'
    · subst h'; exact init_le_foldl_max t v
    · exact mem_le_foldl_max t h v h'

theorem gmin_le_of_mem {g : List ℚ} {v : ℚ} (hv : v ∈ g) : gmin g ≤ v := by
  match g, hv with
  | h :: t, hv =>
    rcases List.mem_cons.mp hv with h' | h'
    · subst h'; exact foldl_min_le_init t v
    · exact foldl_min_le_mem t h v h'

theorem gmin_le_gmax {g : List ℚ} (hg : g ≠ []) : gmin g ≤ gmax g := by
  match g with
  | h :: t =>
    exact (gmin_le_of_mem (List.mem_cons_self h t)).trans (le_gmax_of_mem (List.mem_cons_self h t))

/-- Core bound on the quantizer's scaled value: for every member of the
group, `v * invScale + 8.5` is at least `1/2`, so the truncated index is
never negative and the `& 0xF` mask never wraps. -/
theorem q40_scaled_lb {g : List ℚ} (hg : g ≠ []) {v : ℚ} (hv : v ∈ g) :
    1/2 ≤ v * q40invScale g + 17/2 := by
  by_cases hd : q40delta g = 0
  · simp [q40invScale, hd]
    norm_num
  · have habs : q40absMax g ≠ 0 := by
      intro h
      exact hd (by simp [q40delta, h])
    have hinv : q40invScale g = 1 / q40delta g := by simp [q40invScale, hd]
    have hmm : gmin g ≤ gmax g := gmin_le_gmax hg
    by_cases hc : -(gmin g) > gmax g
    · -- absMax = gmin, which is negative here
      have hA : q40absMax g = gmin g := by simp [q40absMax, hc]
      have hmneg : gmin g < 0 := by linarith
      have hmne : gmin g ≠ 0 := ne_of_lt hmneg
      have hδpos : 0 < gmin g / (-8) :=
        div_pos_iff.mpr (Or.inr ⟨hmneg, by norm_num⟩)
      have hspos : 0 < q40invScale g := by
        rw [hinv, q40delta, hA]
        exact one_div_pos.mpr hδpos
      have hmul : gmin g * q40invScale g = -8 := by
        rw [hinv, q40delta, hA]
        field_simp
        ring
      have : gmin g * q40invScale g ≤ v * q40invScale g :=
        mul_le_mul_of_nonneg_right (gmin_le_of_mem hv) (le_of_lt hspos)
      rw [hmul] at this
      linarith
    · -- absMax = gmax, which is positive here
      have hA : q40absMax g = gmax g := by simp [q40absMax, hc]
      have hMpos : 0 < gmax g := by
        rcases lt_trichotomy (gmax g) 0 with h | h | h
        · exfalso
          push_neg at hc
          linarith
        · exact absurd (hA.trans h) habs
        · exact h
      have hMne : gmax g ≠ 0 := ne_of_gt hMpos
      have hδneg : gmax g / (-8) < 0 :=
        div_neg_of_pos_of_neg hMpos (by norm_num)
      have hsneg : q40invScale g < 0 := by
        rw [hinv, q40delta, hA]
        exact one_div_neg.mpr hδneg
      have hmul : gmax g * q40invScale g = -8 := by
        rw [hinv, q40delta, hA]
        field_simp
        ring
      have : gmax g * q40invScale g ≤ v * q40invScale g :=
        mul_le_mul_of_nonpos_right (le_gmax_of_mem hv) (le_of_lt hsneg)
      rw [hmul] at this
      linarith

theorem ratTrunc_nat_scale (n k : ℕ) :
    ratTrunc ((n : ℚ) * (k : ℕ)) = (k : ℤ) * (n : ℤ) := by
  have h : ((n : ℚ) * (k : ℕ)) = ((k * n : ℕ) : ℚ) := by push_cast; ring
  rw [h, ratTrunc_natCast]
  push_cast
  ring

theorem getBytes_float32_nat (n : ℕ) :
    getBytes (n : ℚ) "float32" = .ok (4 * (n : ℤ)) := by
  have h := ratTrunc_nat_scale n 4
  norm_num at h
  simp [getBytes, h]

theorem getBytes_float16_nat (n : ℕ) :
    getBytes (n : ℚ) "float16" = .ok (2 * (n : ℤ)) := by
  have h := ratTrunc_nat_scale n 2
  norm_num at h
  simp [getBytes, h]

theorem getBytes_q40_nat (n : ℕ) :
    getBytes (n : ℚ) "q40" = .ok (((n / 32 : ℕ) : ℤ) * 18) := by
  have h : ⌊((n : ℚ) / 32)⌋ = ((n / 32 : ℕ) : ℤ) := by
    have h32 : ((32 : ℚ)) = ((32 : ℕ) : ℚ) := by norm_cast
    rw [h32, Rat.floor_natCast_div_natCast]
    exact (Int.ofNat_ediv n 32).symm
  simp [getBytes, h]

/-! Claim theorems. -/

/-- Claim C3, counterexample to the claim as stated: at the element
count 33, which is not a multiple of 32, `getBytes` does not fail — it
silently floors and returns 18 bytes, so the requirement is not "fatal
at sizeOf time". -/
theorem claim_C3_counterexample :
    (33 : ℕ) % 32 ≠ 0 ∧ getBytes ((33 : ℕ) : ℚ) "q40" = .ok 18 := by
  constructor
  · decide
  · with_unfolding_all decide

/-- Claim C3 (amended): `getBytes` returns `4n` for float32, `2n` for
float16 and `(n / 32) * 18` (flooring, with no divisibility check and no
failure) for q40; the `n % 32 == 0` requirement is enforced fatally only
later, by the assertion of `quantizeQ40` at encode time. -/
theorem claim_C3_sizeOf (n : ℕ) (half : ℚ → List ℕ) (x : List ℚ)
    (hx : x.length = n) (hmod : n % 32 ≠ 0) :
    getBytes (n : ℚ) "float32" = .ok (4 * (n : ℤ)) ∧
    getBytes (n : ℚ) "float16" = .ok (2 * (n : ℤ)) ∧
    getBytes (n : ℚ) "q40" = .ok (((n / 32 : ℕ) : ℤ) * 18) ∧
    quantizeQ40 half x = .error .assertionError := by
  refine ⟨getBytes_float32_nat n, getBytes_float16_nat n,
    getBytes_q40_nat n, ?_⟩
  unfold quantizeQ40
  rw [hx, if_neg hmod]

/-- Claim C3, witness: the amended statement instantiated at `n = 33`
with a concrete two-byte packer and a concrete 33-element array. -/
theorem claim_C3_witness :
    getBytes ((33 : ℕ) : ℚ) "float32" = .ok (4 * ((33 : ℕ) : ℤ)) ∧
    getBytes ((33 : ℕ) : ℚ) "float16" = .ok (2 * ((33 : ℕ) : ℤ)) ∧
    getBytes ((33 : ℕ) : ℚ) "q40" = .ok ((((33 : ℕ) / 32 : ℕ) : ℤ) * 18) ∧
    quantizeQ40 (fun _ => [0, 0]) (List.replicate 33 0) =
      .error .assertionError :=
  claim_C3_sizeOf 33 (fun _ => [0, 0]) (List.replicate 33 0)
    (by simp) (by decide)

/-- Claim C4: for each of the three encodings (with length a multiple of
32 in the q40 case, and the abstract per-element packers emitting their
fixed byte widths), `exportTensor` succeeds, the bytes it writes have
exactly the length it returns, and `getBytes` on the element count
returns that same byte count. -/
theorem claim_C4_sizeOf_matches_encode (pack4 pack2 half : ℚ → List ℕ)
    (t : String) (d : List ℚ)
    (h4 : ∀ q, (pack4 q).length = 4) (h2 : ∀ q, (pack2 q).length = 2)
    (hh : ∀ q, (half q).length = 2)
    (ht : t = "float32" ∨ t = "float16" ∨ t = "q40")
    (hq : t = "q40" → d.length % 32 = 0) :
    ∃ b n, exportTensor pack4 pack2 half t d = .ok (b, n) ∧
      (b.length : ℤ) = n ∧ getBytes (d.length : ℚ) t = .ok n := by
  rcases ht with rfl | rfl | rfl
  · refine ⟨d.flatMap pack4, ((d.flatMap pack4).length : ℤ), ?_, rfl, ?_⟩
    · simp [exportTensor]
    · rw [flatMap_const_length pack4 4 h4 d, getBytes_float32_nat]
      norm_cast
  · refine ⟨d.flatMap pack2, ((d.flatMap pack2).length : ℤ), ?_, rfl, ?_⟩
    · simp [exportTensor]
    · rw [flatMap_const_length pack2 2 h2 d, getBytes_float16_nat]
      norm_cast
  · have hmod := hq rfl
    refine ⟨(chunks32 d).flatMap (q40Group half),
      18 * ((d.length : ℤ) / 32), ?_, ?_, ?_⟩
    · simp [exportTensor, quantizeQ40, if_pos hmod]
    · rw [flatMap_const_length (q40Group half) 18 (q40Group_length hh),
        chunks32_length]
      push_cast [Int.ofNat_ediv]
      ring
    · rw [getBytes_q40_nat]
      congr 1
      rw [Int.ofNat_ediv]
      push_cast
      ring

/-- Claim C4, witness: the theorem instantiated at the q40 encoding, a
32-element array, and concrete fixed-width packers. -/
theorem claim_C4_witness :
    ∃ b n, exportTensor (fun _ => [0, 0, 0, 0]) (fun _ => [0, 0])
        (fun _ => [0, 0]) "q40" (List.replicate 32 0) = .ok (b, n) ∧
      (b.length : ℤ) = n ∧
      getBytes ((List.replicate 32 (0 : ℚ)).length : ℚ) "q40" = .ok n :=
  claim_C4_sizeOf_matches_encode (fun _ => [0, 0, 0, 0]) (fun _ => [0, 0])
    (fun _ => [0, 0]) "q40" (List.replicate 32 0)
    (fun _ => rfl) (fun _ => rfl) (fun _ => rfl)
    (Or.inr (Or.inr rfl)) (fun _ => by simp)

theorem getD_mem_of_lt {g : List ℚ} {i : ℕ} (h : i < g.length) :
    g.getD i 0 ∈ g := by
  rw [List.getD_eq_getElem g 0 h]
  exact List.getElem_mem h

theorem flatMap_congr_mem {α β : Type} {l : List α} {f g : α → List β}
    (h : ∀ a ∈ l, f a = g a) : l.flatMap f = l.flatMap g := by
  induction l with
  | nil => rfl
  | cons a l ih =>
    simp only [List.flatMap_cons, h a (List.mem_cons_self a l)]
    rw [ih (fun b hb => h b (List.mem_cons_of_mem a hb))]

/-- On a full group the packed byte is exactly the two clamped indices in
the low and high nibble: the scaled values are never negative, so the
`& 0xF` masks are the identity. -/
theorem q40byte_eq_spec {g : List ℚ} (hg : g.length = 32) {i : ℕ}
    (hi : i < 16) :
    q40byte g i =
      (min 15 (ratTrunc (g.getD i 0 * q40invScale g + 17/2))).toNat +
      16 * (min 15 (ratTrunc (g.getD (i + 16) 0 * q40invScale g + 17/2))).toNat := by
  have hne : g ≠ [] := by intro h; rw [h] at hg; simp at hg
  have hm0 : g.getD i 0 ∈ g := getD_mem_of_lt (by omega)
  have hm1 : g.getD (i + 16) 0 ∈ g := getD_mem_of_lt (by omega)
  have hb0 := q40_scaled_lb hne hm0
  have hb1 := q40_scaled_lb hne hm1
  have ht0 : 0 ≤ ratTrunc (g.getD i 0 * q40invScale g + 17/2) :=
    ratTrunc_nonneg (by linarith)
  have ht1 : 0 ≤ ratTrunc (g.getD (i + 16) 0 * q40invScale g + 17/2) :=
    ratTrunc_nonneg (by linarith)
  have e0 : (min 15 (ratTrunc (g.getD i 0 * q40invScale g + 17/2))).emod 16 =
      min 15 (ratTrunc (g.getD i 0 * q40invScale g + 17/2)) :=
    Int.emod_eq_of_lt (by omega) (by omega)
  have e1 : (min 15 (ratTrunc (g.getD (i + 16) 0 * q40invScale g + 17/2))).emod 16 =
      min 15 (ratTrunc (g.getD (i + 16) 0 * q40invScale g + 17/2)) :=
    Int.emod_eq_of_lt (by omega) (by omega)
  unfold q40byte
  rw [e0, e1]
  omega

/-- Claim C1: on any input whose length is a multiple of 32,
`quantizeQ40` emits, for each consecutive group of 32 values, the
half-precision serialisation of `delta` followed by 16 bytes, where
`absMax` prefers the negative extreme exactly when `-gmin > gmax`,
`delta = absMax / -8`, the inverse scale is `0` when `delta` is `0` and
`1/delta` otherwise, and byte `i` packs
`min(15, truncateTowardZero(group[i]*invScale + 8.5))` in its low nibble
and the same expression for `group[i+16]` in its high nibble. -/
theorem claim_C1_quantizeQ40 (half : ℚ → List ℕ) (x : List ℚ)
    (hx : x.length % 32 = 0) :
    quantizeQ40 half x = .ok ((chunks32 x).flatMap (fun g =>
      let absMax := if -(gmin g) > gmax g then gmin g else gmax g
      let delta := absMax / (-8)
      let invScale := if delta = 0 then 0 else 1 / delta
      half delta ++ (List.range 16).map (fun i =>
        (min 15 (ratTrunc (g.getD i 0 * invScale + 17/2))).toNat +
        16 * (min 15 (ratTrunc (g.getD (i + 16) 0 * invScale + 17/2))).toNat)),
      18 * ((x.length : ℤ) / 32)) := by
  unfold quantizeQ40
  rw [if_pos hx]
  congr 1
  refine congrArg (fun l => (l, 18 * ((x.length : ℤ) / 32))) ?_
  apply flatMap_congr_mem
  intro g hgmem
  have hg32 : g.length = 32 := chunks32_mem_length hgmem
  show q40Group half g = _
  simp only [q40Group, q40invScale, q40delta, q40absMax]
  congr 1
  apply List.map_congr_left
  intro i hi
  have h := q40byte_eq_spec hg32 (List.mem_range.mp hi)
  simpa only [q40invScale, q40delta, q40absMax] using h

/-- Claim C1, witness: the theorem instantiated at a concrete 32-value
ramp and a concrete two-byte packer; the groups, delta and packed bytes
evaluate concretely. -/
theorem claim_C1_witness :
    quantizeQ40 (fun _ => [9, 9]) (List.replicate 32 (1 : ℚ)) =
      .ok (((chunks32 (List.replicate 32 (1 : ℚ))).flatMap (fun g =>
        let absMax := if -(gmin g) > gmax g then gmin g else gmax g
        let delta := absMax / (-8)
        let invScale := if delta = 0 then 0 else 1 / delta
        (fun (_ : ℚ) => [9, 9]) delta ++ (List.range 16).map (fun i =>
          (min 15 (ratTrunc (g.getD i 0 * invScale + 17/2))).toNat +
          16 * (min 15 (ratTrunc (g.getD (i + 16) 0 * invScale + 17/2))).toNat))),
        18 * (((List.replicate 32 (1 : ℚ)).length : ℤ) / 32)) :=
  claim_C1_quantizeQ40 (fun _ => [9, 9])
    (List.replicate 32 (1 : ℚ)) (by simp)

/-- Claim C2, counterexample: the claimed negative-index wrap can never
happen — for every 32-value group and every position, the scaled value
truncates to a nonnegative index, so there is no group on which the
emitted nibble is a two's-complement wrap of a negative index. -/
theorem claim_C2_counterexample :
    ¬ ∃ (g : List ℚ) (i : ℕ), g.length = 32 ∧ i < 32 ∧
      ratTrunc (g.getD i 0 * q40invScale g + 17/2) < 0 := by
  rintro ⟨g, i, hg, hi, hneg⟩
  have hne : g ≠ [] := by intro h; rw [h] at hg; simp at hg
  have hmem : g.getD i 0 ∈ g := getD_mem_of_lt (by omega)
  have hlb := q40_scaled_lb hne hmem
  have h0 : (0 : ℚ) ≤ g.getD i 0 * q40invScale g + 17/2 := by linarith
  exact absurd (ratTrunc_nonneg h0) (by omega)

/-- Claim C2 (amended): the quantizer's scaled value
`group[i]*invScale + 8.5` is always at least `1/2`, so the truncated
index is never negative, the `& 0xF` mask is the identity on the clamped
index (no two's-complement wrap ever occurs), and every emitted nibble
lies in `0..15`. -/
theorem claim_C2_nibble_in_range (g : List ℚ) (i : ℕ)
    (hg : g.length = 32) (hi : i < 32) :
    1/2 ≤ g.getD i 0 * q40invScale g + 17/2 ∧
    0 ≤ ratTrunc (g.getD i 0 * q40invScale g + 17/2) ∧
    Int.emod (min 15 (ratTrunc (g.getD i 0 * q40invScale g + 17/2))) 16 =
      min 15 (ratTrunc (g.getD i 0 * q40invScale g + 17/2)) ∧
    0 ≤ min 15 (ratTrunc (g.getD i 0 * q40invScale g + 17/2)) ∧
    min 15 (ratTrunc (g.getD i 0 * q40invScale g + 17/2)) ≤ 15 := by
  have hne : g ≠ [] := by intro h; rw [h] at hg; simp at hg
  have hmem : g.getD i 0 ∈ g := getD_mem_of_lt (by omega)
  have hlb := q40_scaled_lb hne hmem
  have ht : 0 ≤ ratTrunc (g.getD i 0 * q40invScale g + 17/2) :=
    ratTrunc_nonneg (by linarith)
  refine ⟨hlb, ht, Int.emod_eq_of_lt (by omega) (by omega), by omega, by omega⟩

/-- Claim C2, witness: the amended statement instantiated at the
all-zero group and position 0. -/
theorem claim_C2_witness :
    1/2 ≤ (List.replicate 32 (0 : ℚ)).getD 0 0 *
        q40invScale (List.replicate 32 0) + 17/2 ∧
    0 ≤ ratTrunc ((List.replicate 32 (0 : ℚ)).getD 0 0 *
        q40invScale (List.replicate 32 0) + 17/2) ∧
    Int.emod (min 15 (ratTrunc ((List.replicate 32 (0 : ℚ)).getD 0 0 *
        q40invScale (List.replicate 32 0) + 17/2))) 16 =
      min 15 (ratTrunc ((List.replicate 32 (0 : ℚ)).getD 0 0 *
        q40invScale (List.replicate 32 0) + 17/2)) ∧
    0 ≤ min 15 (ratTrunc ((List.replicate 32 (0 : ℚ)).getD 0 0 *
        q40invScale (List.replicate 32 0) + 17/2)) ∧
    min 15 (ratTrunc ((List.replicate 32 (0 : ℚ)).getD 0 0 *
        q40invScale (List.replicate 32 0) + 17/2)) ≤ 15 :=
  claim_C2_nibble_in_range (List.replicate 32 0) 0 (by simp) (by omega)

/-! Dictionary lemmas for the shard-merge proofs. -/

theorem dictGet_dictSet_self {α : Type} (m : List (String × α))
    (k : String) (v : α) : dictGet (dictSet m k v) k = some v := by
  induction m with
  | nil => simp [dictSet, dictGet]
  | cons p m ih =>
    obtain ⟨k', v'⟩ := p
    by_cases h : k' = k
    · simp [dictSet, h, dictGet]
    · simp [dictSet, h, dictGet, ih]

theorem dictGet_dictSet_ne {α : Type} (m : List (String × α))
    {k' k : String} (v : α) (h : k' ≠ k) :
    dictGet (dictSet m k' v) k = dictGet m k := by
  induction m with
  | nil => simp [dictSet, dictGet, h]
  | cons p m ih =>
    obtain ⟨a, b⟩ := p
    by_cases ha : a = k'
    · simp [dictSet, ha, dictGet, h]
    · by_cases hk : a = k
      · simp [dictSet, ha, dictGet, hk, Ne.symm h]
      · simp [dictSet, ha, dictGet, hk, ih]

theorem dictGet_eq_none_iff {α : Type} (m : List (String × α))
    (k : String) : dictGet m k = none ↔ ∀ p ∈ m, p.1 ≠ k := by
  induction m with
  | nil => simp [dictGet]
  | cons p m ih =>
    obtain ⟨a, b⟩ := p
    by_cases ha : a = k
    · simp [dictGet, ha]
    · simp [dictGet, ha, ih]

theorem dictGet_some_mem_keys {α : Type} {m : List (String × α)}
    {k : String} {v : α} (h : dictGet m k = some v) :
    k ∈ m.map Prod.fst := by
  induction m with
  | nil => simp [dictGet] at h
  | cons p m ih =>
    obtain ⟨a, b⟩ := p
    by_cases ha : a = k
    · simp [ha]
    · simp only [dictGet, if_neg ha] at h
      simp [ih h]

theorem pyDelItem_sublist {α : Type} :
    ∀ {m m' : List (String × α)} {k : String},
    pyDelItem m k = .ok m' → m'.Sublist m := by
  intro m
  induction m with
  | nil => intro m' k h; simp [pyDelItem] at h
  | cons p m ih =>
    intro m' k h
    obtain ⟨a, b⟩ := p
    by_cases ha : a = k
    · simp only [pyDelItem, if_pos ha] at h
      cases h
      exact List.sublist_cons_self (a, b) m
    · simp only [pyDelItem, if_neg ha] at h
      cases hr : pyDelItem m k with
      | error e => rw [hr] at h; cases h
      | ok r =>
        rw [hr] at h
        simp only [Except.map] at h
        cases h
        exact List.Sublist.cons₂ (a, b) (ih hr)

theorem dictGet_none_of_sublist {α : Type} {m m' : List (String × α)}
    {k : String} (hs : m'.Sublist m) (h : dictGet m k = none) :
    dictGet m' k = none := by
  rw [dictGet_eq_none_iff] at h ⊢
  exact fun p hp => h p (hs.subset hp)

theorem pyDelItem_dictGet_ne {α : Type} :
    ∀ {m m' : List (String × α)} {k' k : String},
    pyDelItem m k' = .ok m' → k' ≠ k → dictGet m' k = dictGet m k := by
  intro m
  induction m with
  | nil => intro m' k' k h _; simp [pyDelItem] at h
  | cons p m ih =>
    intro m' k' k h hne
    obtain ⟨a, b⟩ := p
    by_cases ha : a = k'
    · simp only [pyDelItem, if_pos ha] at h
      cases h
      have : a ≠ k := by rw [ha]; exact hne
      simp [dictGet, this]
    · simp only [pyDelItem, if_neg ha] at h
      cases hr : pyDelItem m k' with
      | error e => rw [hr] at h; cases h
      | ok r =>
        rw [hr] at h
        simp only [Except.map] at h
        cases h
        by_cases hk : a = k
        · simp [dictGet, hk]
        · simp [dictGet, hk, ih hr hne]

theorem pyDelItem_nodup_none {α : Type} :
    ∀ {m m' : List (String × α)} {k : String},
    (m.map Prod.fst).Nodup → pyDelItem m k = .ok m' →
    dictGet m' k = none := by
  intro m
  induction m with
  | nil => intro m' k _ h; simp [pyDelItem] at h
  | cons p m ih =>
    intro m' k hnd h
    obtain ⟨a, b⟩ := p
    simp only [List.map_cons, List.nodup_cons] at hnd
    by_cases ha : a = k
    · simp only [pyDelItem, if_pos ha] at h
      cases h
      rw [dictGet_eq_none_iff]
      intro p hp hpk
      exact hnd.1 (by rw [ha] at hnd ⊢; rw [← hpk]; exact List.mem_map_of_mem Prod.fst hp)
    · simp only [pyDelItem, if_neg ha] at h
      cases hr : pyDelItem m k with
      | error e => rw [hr] at h; cases h
      | ok r =>
        rw [hr] at h
        simp only [Except.map] at h
        cases h
        simp [dictGet, ha, ih hnd.2 hr]

theorem pyGetItem_del_ok {α : Type} :
    ∀ {m : List (String × α)} {k : String} {t : α},
    pyGetItem m k = .ok t → ∃ m', pyDelItem m k = .ok m' := by
  intro m
  induction m with
  | nil => intro k t h; simp [pyGetItem, dictGet] at h
  | cons p m ih =>
    intro k t h
    obtain ⟨a, b⟩ := p
    by_cases ha : a = k
    · exact ⟨m, by simp [pyDelItem, ha]⟩
    · simp only [pyGetItem, dictGet, if_neg ha] at h
      obtain ⟨r, hr⟩ := ih (show pyGetItem m k = .ok t from by
        simp [pyGetItem]; exact h)
      exact ⟨(a, b) :: r, by simp [pyDelItem, ha, hr, Except.map]⟩

theorem deleteAll_lookupAll_ne :
    ∀ {models ms' : List Model} {k' k : String},
    deleteAll models k' = .ok ms' → k' ≠ k →
    lookupAll ms' k = lookupAll models k := by
  intro models
  induction models with
  | nil =>
    intro ms' k' k h _
    simp only [deleteAll] at h
    cases h
    rfl
  | cons m rest ih =>
    intro ms' k' k h hne
    simp only [deleteAll] at h
    cases hd : pyDelItem m k' with
    | error e => rw [hd] at h; cases h
    | ok m1 =>
      rw [hd] at h
      cases hr : deleteAll rest k' with
      | error e => rw [hr] at h; cases h
      | ok ms1 =>
        rw [hr] at h
        cases h
        have hget : pyGetItem m1 k = pyGetItem m k := by
          simp [pyGetItem, pyDelItem_dictGet_ne hd hne]
        simp [lookupAll, hget, ih hr hne]

theorem deleteAll_preserves_none :
    ∀ {models ms' : List Model} {k' k : String},
    deleteAll models k' = .ok ms' →
    (∀ m ∈ models, dictGet m k = none) →
    ∀ m' ∈ ms', dictGet m' k = none := by
  intro models
  induction models with
  | nil =>
    intro ms' k' k h _
    simp only [deleteAll] at h
    cases h
    simp
  | cons m rest ih =>
    intro ms' k' k h hnone
    simp only [deleteAll] at h
    cases hd : pyDelItem m k' with
    | error e => rw [hd] at h; cases h
    | ok m1 =>
      rw [hd] at h
      cases hr : deleteAll rest k' with
      | error e => rw [hr] at h; cases h
      | ok ms1 =>
        rw [hr] at h
        cases h
        intro m' hm'
        rcases List.mem_cons.mp hm' with rfl | hm'
        · exact dictGet_none_of_sublist (pyDelItem_sublist hd)
            (hnone m (List.mem_cons_self m rest))
        · exact ih hr (fun x hx => hnone x (List.mem_cons_of_mem m hx)) m' hm'

theorem deleteAll_nodup_none :
    ∀ {models ms' : List Model} {k : String},
    (∀ m ∈ models, (m.map Prod.fst).Nodup) →
    deleteAll models k = .ok ms' →
    ∀ m' ∈ ms', dictGet m' k = none := by
  intro models
  induction models with
  | nil =>
    intro ms' k _ h
    simp only [deleteAll] at h
    cases h
    simp
  | cons m rest ih =>
    intro ms' k hnd h
    simp only [deleteAll] at h
    cases hd : pyDelItem m k with
    | error e => rw [hd] at h; cases h
    | ok m1 =>
      rw [hd] at h
      cases hr : deleteAll rest k with
      | error e => rw [hr] at h; cases h
      | ok ms1 =>
        rw [hr] at h
        cases h
        intro m' hm'
        rcases List.mem_cons.mp hm' with rfl | hm'
        · exact pyDelItem_nodup_none (hnd m (List.mem_cons_self m rest)) hd
        · exact ih (fun x hx => hnd x (List.mem_cons_of_mem m hx)) hr m' hm'

theorem deleteAll_preserves_keysNodup :
    ∀ {models ms' : List Model} {k : String},
    (∀ m ∈ models, (m.map Prod.fst).Nodup) →
    deleteAll models k = .ok ms' →
    ∀ m' ∈ ms', (m'.map Prod.fst).Nodup := by
  intro models
  induction models with
  | nil =>
    intro ms' k _ h
    simp only [deleteAll] at h
    cases h
    simp
  | cons m rest ih =>
    intro ms' k hnd h
    simp only [deleteAll] at h
    cases hd : pyDelItem m k with
    | error e => rw [hd] at h; cases h
    | ok m1 =>
      rw [hd] at h
      cases hr : deleteAll rest k with
      | error e => rw [hr] at h; cases h
      | ok ms1 =>
        rw [hr] at h
        cases h
        intro m' hm'
        rcases List.mem_cons.mp hm' with rfl | hm'
        · exact ((pyDelItem_sublist hd).map Prod.fst).nodup
            (hnd m (List.mem_cons_self m rest))
        · exact ih (fun x hx => hnd x (List.mem_cons_of_mem m hx)) hr m' hm'

theorem lookupAll_deleteAll_ok :
    ∀ {models : List Model} {k : String} {ts : List Tensor},
    lookupAll models k = .ok ts → ∃ ms', deleteAll models k = .ok ms' := by
  intro models
  induction models with
  | nil => intro k ts _; exact ⟨[], rfl⟩
  | cons m rest ih =>
    intro k ts h
    simp only [lookupAll] at h
    cases hg : pyGetItem m k with
    | error e => rw [hg] at h; cases h
    | ok t =>
      rw [hg] at h
      cases hl : lookupAll rest k with
      | error e => rw [hl] at h; cases h
      | ok ts1 =>
        obtain ⟨m1, hm1⟩ := pyGetItem_del_ok hg
        obtain ⟨ms1, hms1⟩ := ih hl
        exact ⟨m1 :: ms1, by simp [deleteAll, hm1, hms1]⟩

theorem toDictGo_dictGet_not_mem :
    ∀ {names : List String} {models : List Model} {sd sd' : Model}
      {ms' : List Model} {k : String},
    toDictGo names models sd = .ok (sd', ms') → k ∉ names →
    dictGet sd' k = dictGet sd k := by
  intro names
  induction names with
  | nil =>
    intro models sd sd' ms' k h _
    simp only [toDictGo] at h
    cases h
    rfl
  | cons n names ih =>
    intro models sd sd' ms' k h hk
    have hkn : k ≠ n := fun he => hk (he ▸ List.mem_cons_self n names)
    have hktail : k ∉ names := fun he => hk (List.mem_cons_of_mem n he)
    simp only [toDictGo] at h
    cases hln : lookupAll models n with
    | error e => rw [hln] at h; cases h
    | ok ts =>
      rw [hln] at h
      cases ts with
      | nil => cases h
      | cons s0 srest =>
        dsimp only at h
        by_cases hc : srest.length = 0 ∨ s0.shape.length = 1
        · rw [if_pos hc] at h
          rw [ih h hktail, dictGet_dictSet_ne sd s0 (Ne.symm hkn)]
        · rw [if_neg hc] at h
          cases hdel : deleteAll models n with
          | error e => rw [hdel] at h; cases h
          | ok ms1 =>
            rw [hdel] at h
            rw [ih h hktail, dictGet_dictSet_ne sd _ (Ne.symm hkn)]

theorem toDictGo_lookupAll_not_mem :
    ∀ {names : List String} {models : List Model} {sd sd' : Model}
      {ms' : List Model} {k : String},
    toDictGo names models sd = .ok (sd', ms') → k ∉ names →
    lookupAll ms' k = lookupAll models k := by
  intro names
  induction names with
  | nil =>
    intro models sd sd' ms' k h _
    simp only [toDictGo] at h
    cases h
    rfl
  | cons n names ih =>
    intro models sd sd' ms' k h hk
    have hkn : k ≠ n := fun he => hk (he ▸ List.mem_cons_self n names)
    have hktail : k ∉ names := fun he => hk (List.mem_cons_of_mem n he)
    simp only [toDictGo] at h
    cases hln : lookupAll models n with
    | error e => rw [hln] at h; cases h
    | ok ts =>
      rw [hln] at h
      cases ts with
      | nil => cases h
      | cons s0 srest =>
        dsimp only at h
        by_cases hc : srest.length = 0 ∨ s0.shape.length = 1
        · rw [if_pos hc] at h
          exact ih h hktail
        · rw [if_neg hc] at h
          cases hdel : deleteAll models n with
          | error e => rw [hdel] at h; cases h
          | ok ms1 =>
            rw [hdel] at h
            rw [ih h hktail,
              deleteAll_lookupAll_ne hdel (Ne.symm hkn)]

theorem toDictGo_preserves_none :
    ∀ {names : List String} {models : List Model} {sd sd' : Model}
      {ms' : List Model} {k : String},
    toDictGo names models sd = .ok (sd', ms') →
    (∀ m ∈ models, dictGet m k = none) →
    ∀ m' ∈ ms', dictGet m' k = none := by
  intro names
  induction names with
  | nil =>
    intro models sd sd' ms' k h hnone
    simp only [toDictGo] at h
    cases h
    exact hnone
  | cons n names ih =>
    intro models sd sd' ms' k h hnone
    simp only [toDictGo] at h
    cases hln : lookupAll models n with
    | error e => rw [hln] at h; cases h
    | ok ts =>
      rw [hln] at h
      cases ts with
      | nil => cases h
      | cons s0 srest =>
        dsimp only at h
        by_cases hc : srest.length = 0 ∨ s0.shape.length = 1
        · rw [if_pos hc] at h
          exact ih h hnone
        · rw [if_neg hc] at h
          cases hdel : deleteAll models n with
          | error e => rw [hdel] at h; cases h
          | ok ms1 =>
            rw [hdel] at h
            exact ih h (deleteAll_preserves_none hdel hnone)

/-- Names handled by the take-first branch of `toDict` (a single slice,
or a 1-D tensor) end up in the state dict as the first shard's tensor,
and every shard keeps its slice. -/
theorem toDictGo_first_spec :
    ∀ {names : List String} {models : List Model} {sd sd' : Model}
      {ms' : List Model} {name : String} {t0 : Tensor} {trest : List Tensor},
    toDictGo names models sd = .ok (sd', ms') →
    name ∈ names → names.Nodup →
    lookupAll models name = .ok (t0 :: trest) →
    (trest.length = 0 ∨ t0.shape.length = 1) →
    dictGet sd' name = some t0 ∧ lookupAll ms' name = .ok (t0 :: trest) := by
  intro names
  induction names with
  | nil => intro models sd sd' ms' name t0 trest _ hmem; cases hmem
  | cons n names ih =>
    intro models sd sd' ms' name t0 trest h hmem hnd hlk hcond
    simp only [toDictGo] at h
    by_cases hn : n = name
    · subst hn
      rw [hlk] at h
      dsimp only at h
      rw [if_pos hcond] at h
      have hnotmem : n ∉ names := (List.nodup_cons.mp hnd).1
      constructor
      · rw [toDictGo_dictGet_not_mem h hnotmem, dictGet_dictSet_self]
      · rw [toDictGo_lookupAll_not_mem h hnotmem, hlk]
    · have hmem' : name ∈ names := by
        rcases List.mem_cons.mp hmem with he | he
        · exact absurd he.symm hn
        · exact he
      have hnd' : names.Nodup := (List.nodup_cons.mp hnd).2
      cases hln : lookupAll models n with
      | error e => rw [hln] at h; cases h
      | ok ts =>
        rw [hln] at h
        cases ts with
        | nil => cases h
        | cons s0 srest =>
          dsimp only at h
          by_cases hc : srest.length = 0 ∨ s0.shape.length = 1
          · rw [if_pos hc] at h
            exact ih h hmem' hnd' hlk hcond
          · rw [if_neg hc] at h
            cases hdel : deleteAll models n with
            | error e => rw [hdel] at h; cases h
            | ok ms1 =>
              rw [hdel] at h
              dsimp only at h
              have hlk' : lookupAll ms1 name = .ok (t0 :: trest) := by
                rw [deleteAll_lookupAll_ne hdel hn, hlk]
              exact ih h hmem' hnd' hlk' hcond

/-- Names handled by the concatenation branch of `toDict` (two or more
slices of rank at least 2) end up in the state dict as the
axis-selected concatenation, and the slice is deleted from every
shard. -/
theorem toDictGo_concat_spec :
    ∀ {names : List String} {models : List Model} {sd sd' : Model}
      {ms' : List Model} {name : String} {t0 : Tensor} {trest : List Tensor},
    toDictGo names models sd = .ok (sd', ms') →
    name ∈ names → names.Nodup →
    (∀ m ∈ models, (m.map Prod.fst).Nodup) →
    lookupAll models name = .ok (t0 :: trest) →
    ¬(trest.length = 0 ∨ t0.shape.length = 1) →
    dictGet sd' name =
      some (torchCat (t0 :: trest) (if isAxis1 name then 1 else 0)) ∧
    (∀ m' ∈ ms', dictGet m' name = none) := by
  intro names
  induction names with
  | nil => intro models sd sd' ms' name t0 trest _ hmem; cases hmem
  | cons n names ih =>
    intro models sd sd' ms' name t0 trest h hmem hnd hkeys hlk hcond
    simp only [toDictGo] at h
    by_cases hn : n = name
    · subst hn
      rw [hlk] at h
      dsimp only at h
      rw [if_neg hcond] at h
      cases hdel : deleteAll models n with
      | error e => rw [hdel] at h; cases h
      | ok ms1 =>
        rw [hdel] at h
        dsimp only at h
        have hnotmem : n ∉ names := (List.nodup_cons.mp hnd).1
        constructor
        · rw [toDictGo_dictGet_not_mem h hnotmem, dictGet_dictSet_self]
        · exact toDictGo_preserves_none h (deleteAll_nodup_none hkeys hdel)
    · have hmem' : name ∈ names := by
        rcases List.mem_cons.mp hmem with he | he
        · exact absurd he.symm hn
        · exact he
      have hnd' : names.Nodup := (List.nodup_cons.mp hnd).2
      cases hln : lookupAll models n with
      | error e => rw [hln] at h; cases h
      | ok ts =>
        rw [hln] at h
        cases ts with
        | nil => cases h
        | cons s0 srest =>
          dsimp only at h
          by_cases hc : srest.length = 0 ∨ s0.shape.length = 1
          · rw [if_pos hc] at h
            exact ih h hmem' hnd' hkeys hlk hcond
          · rw [if_neg hc] at h
            cases hdel : deleteAll models n with
            | error e => rw [hdel] at h; cases h
            | ok ms1 =>
              rw [hdel] at h
              dsimp only at h
              have hlk' : lookupAll ms1 name = .ok (t0 :: trest) := by
                rw [deleteAll_lookupAll_ne hdel hn, hlk]
              exact ih h hmem' hnd'
                (deleteAll_preserves_keysNodup hkeys hdel) hlk' hcond

theorem lookupAll_cons_head {m : Model} {rest : List Model} {k : String}
    {t0 : Tensor} {ts : List Tensor}
    (h : lookupAll (m :: rest) k = .ok (t0 :: ts)) :
    dictGet m k = some t0 := by
  simp only [lookupAll] at h
  cases hg : pyGetItem m k with
  | error e => rw [hg] at h; cases h
  | ok t =>
    rw [hg] at h
    cases hl : lookupAll rest k with
    | error e => rw [hl] at h; cases h
    | ok ts1 =>
      rw [hl] at h
      dsimp only at h
      cases h
      simp only [pyGetItem] at hg
      cases hd : dictGet m k with
      | none => rw [hd] at hg; cases hg
      | some v => rw [hd] at hg; cases hg; rfl

/-- Claim C6: under `toDict`, a name carried by two or more shard slices
of rank at least 2 is merged by concatenation, along axis 1 exactly when
the name starts with `tok_embeddings.` or ends with
`.attention.wo.weight` or `.feed_forward.w2.weight` and along axis 0
otherwise; a 1-D name takes the first shard's tensor unchanged, ignoring
the later shards' values. -/
theorem claim_C6_merge_axis (m0 : Model) (rest : List Model)
    (hkeys : ∀ m ∈ m0 :: rest, (m.map Prod.fst).Nodup)
    (name : String) (t0 : Tensor) (trest : List Tensor)
    (hlk : lookupAll (m0 :: rest) name = .ok (t0 :: trest))
    (sd' : Model) (ms' : List Model)
    (hrun : toDict (m0 :: rest) = .ok (sd', ms')) :
    (trest ≠ [] → t0.shape.length ≠ 1 →
      dictGet sd' name = some (torchCat (t0 :: trest)
        (if (strStartsWith name "tok_embeddings." ||
             strEndsWith name ".attention.wo.weight" ||
             strEndsWith name ".feed_forward.w2.weight") = true
         then 1 else 0))) ∧
    (t0.shape.length = 1 → dictGet sd' name = some t0) := by
  have hmem : name ∈ m0.map Prod.fst :=
    dictGet_some_mem_keys (lookupAll_cons_head hlk)
  have hnd0 : (m0.map Prod.fst).Nodup :=
    hkeys m0 (List.mem_cons_self m0 rest)
  simp only [toDict] at hrun
  constructor
  · intro htrest hshape
    have hcond : ¬(trest.length = 0 ∨ t0.shape.length = 1) := by
      push_neg
      exact ⟨fun hz => htrest (List.length_eq_zero.mp hz), hshape⟩
    have hspec := toDictGo_concat_spec hrun hmem hnd0 hkeys hlk hcond
    simpa only [isAxis1] using hspec.1
  · intro hshape
    exact (toDictGo_first_spec hrun hmem hnd0 hlk (Or.inr hshape)).1

/-- Claim C6, witness: two shards, a rank-2 `.attention.wo.weight` slice
pair (merged along axis 1) and a 1-D name (first shard's value taken). -/
theorem claim_C6_witness :
    (([(⟨[1, 1], [2]⟩ : Tensor)] : List Tensor) ≠ [] →
      (⟨[1, 1], [1]⟩ : Tensor).shape.length ≠ 1 →
      dictGet
        [("x.attention.wo.weight", (⟨[1, 2], [1, 2]⟩ : Tensor)),
         ("y", ⟨[2], [7, 7]⟩)] "x.attention.wo.weight" =
        some (torchCat [⟨[1, 1], [1]⟩, ⟨[1, 1], [2]⟩]
          (if (strStartsWith "x.attention.wo.weight" "tok_embeddings." ||
               strEndsWith "x.attention.wo.weight" ".attention.wo.weight" ||
               strEndsWith "x.attention.wo.weight" ".feed_forward.w2.weight") =
              true then 1 else 0))) ∧
    ((⟨[1, 1], [1]⟩ : Tensor).shape.length = 1 →
      dictGet
        [("x.attention.wo.weight", (⟨[1, 2], [1, 2]⟩ : Tensor)),
         ("y", ⟨[2], [7, 7]⟩)] "x.attention.wo.weight" =
        some ⟨[1, 1], [1]⟩) :=
  claim_C6_merge_axis
    [("x.attention.wo.weight", ⟨[1, 1], [1]⟩), ("y", ⟨[2], [7, 7]⟩)]
    [[("x.attention.wo.weight", ⟨[1, 1], [2]⟩), ("y", ⟨[2], [8, 8]⟩)]]
    (by decide) "x.attention.wo.weight" ⟨[1, 1], [1]⟩ [⟨[1, 1], [2]⟩]
    (by with_unfolding_all decide)
    [("x.attention.wo.weight", ⟨[1, 2], [1, 2]⟩), ("y", ⟨[2], [7, 7]⟩)]
    [[("y", ⟨[2], [7, 7]⟩)], [("y", ⟨[2], [8, 8]⟩)]]
    (by with_unfolding_all decide)

/-- Claim C9, counterexample: for a 1-D single-shard tensor the merge
does not remove the slice from the input shard — after `toDict` returns,
the shard dict still maps the name, contradicting "removed from every
input shard mapping for all names including 1-D and single-shard
tensors". -/
theorem claim_C9_counterexample :
    toDict [[("norm.weight", (⟨[1], [5]⟩ : Tensor))]] =
      .ok ([("norm.weight", ⟨[1], [5]⟩)],
        [[("norm.weight", ⟨[1], [5]⟩)]]) := by
  with_unfolding_all decide

/-- Claim C9 (amended): `toDict` releases a consumed slice from every
input shard only for names it concatenates (two or more slices of rank
at least 2); for a single-slice or 1-D name the shards keep their
entries untouched. -/
theorem claim_C9_release_only_concatenated (m0 : Model)
    (rest : List Model)
    (hkeys : ∀ m ∈ m0 :: rest, (m.map Prod.fst).Nodup)
    (name : String) (t0 : Tensor) (trest : List Tensor)
    (hlk : lookupAll (m0 :: rest) name = .ok (t0 :: trest))
    (sd' : Model) (ms' : List Model)
    (hrun : toDict (m0 :: rest) = .ok (sd', ms')) :
    (trest ≠ [] → t0.shape.length ≠ 1 →
      ∀ m' ∈ ms', dictGet m' name = none) ∧
    ((trest = [] ∨ t0.shape.length = 1) →
      lookupAll ms' name = .ok (t0 :: trest)) := by
  have hmem : name ∈ m0.map Prod.fst :=
    dictGet_some_mem_keys (lookupAll_cons_head hlk)
  have hnd0 : (m0.map Prod.fst).Nodup :=
    hkeys m0 (List.mem_cons_self m0 rest)
  simp only [toDict] at hrun
  constructor
  · intro htrest hshape
    have hcond : ¬(trest.length = 0 ∨ t0.shape.length = 1) := by
      push_neg
      exact ⟨fun hz => htrest (List.length_eq_zero.mp hz), hshape⟩
    exact (toDictGo_concat_spec hrun hmem hnd0 hkeys hlk hcond).2
  · intro hcond
    have hcond' : trest.length = 0 ∨ t0.shape.length = 1 := by
      rcases hcond with hc | hc
      · exact Or.inl (by simp [hc])
      · exact Or.inr hc
    exact (toDictGo_first_spec hrun hmem hnd0 hlk hcond').2

/-- Claim C9, witness: the amended statement at the two-shard example —
the concatenated rank-2 name is gone from both shards, the 1-D name is
still present in both. -/
theorem claim_C9_witness :
    (([(⟨[1, 1], [2]⟩ : Tensor)] : List Tensor) ≠ [] →
      (⟨[1, 1], [1]⟩ : Tensor).shape.length ≠ 1 →
      ∀ m' ∈ [[(("y" : String), (⟨[2], [7, 7]⟩ : Tensor))],
              [("y", ⟨[2], [8, 8]⟩)]],
        dictGet m' "x.attention.wo.weight" = none) ∧
    ((([(⟨[1, 1], [2]⟩ : Tensor)] : List Tensor) = [] ∨
        (⟨[1, 1], [1]⟩ : Tensor).shape.length = 1) →
      lookupAll [[(("y" : String), (⟨[2], [7, 7]⟩ : Tensor))],
                 [("y", ⟨[2], [8, 8]⟩)]] "x.attention.wo.weight" =
        .ok [⟨[1, 1], [1]⟩, ⟨[1, 1], [2]⟩]) :=
  claim_C9_release_only_concatenated
    [("x.attention.wo.weight", ⟨[1, 1], [1]⟩), ("y", ⟨[2], [7, 7]⟩)]
    [[("x.attention.wo.weight", ⟨[1, 1], [2]⟩), ("y", ⟨[2], [8, 8]⟩)]]
    (by decide) "x.attention.wo.weight" ⟨[1, 1], [1]⟩ [⟨[1, 1], [2]⟩]
    (by with_unfolding_all decide)
    [("x.attention.wo.weight", ⟨[1, 2], [1, 2]⟩), ("y", ⟨[2], [7, 7]⟩)]
    [[("y", ⟨[2], [7, 7]⟩)], [("y", ⟨[2], [8, 8]⟩)]]
    (by with_unfolding_all decide)

theorem getD_eq_neg_one_iff (m : List (String × ℤ)) (k : String) :
    (dictGet m k).getD 0 = -1 ↔ dictGet m k = some (-1) := by
  cases h : dictGet m k with
  | none => simp
  | some v => simp

theorem exportTensor_nonneg {pack4 pack2 half : ℚ → List ℕ} {ft : String}
    {d : List ℚ} {b : List ℕ} {n : ℤ}
    (h : exportTensor pack4 pack2 half ft d = .ok (b, n)) : 0 ≤ n := by
  unfold exportTensor at h
  by_cases h16 : ft = "float16"
  · rw [if_pos h16] at h
    cases h
    exact Int.natCast_nonneg _
  · rw [if_neg h16] at h
    by_cases h32 : ft = "float32"
    · rw [if_pos h32] at h
      cases h
      exact Int.natCast_nonneg _
    · rw [if_neg h32] at h
      by_cases hq : ft = "q40"
      · rw [if_pos hq] at h
        unfold quantizeQ40 at h
        by_cases hmod : d.length % 32 = 0
        · rw [if_pos hmod] at h
          cases h
          positivity
        · rw [if_neg hmod] at h
          cases h
      · rw [if_neg hq] at h
        cases h

/-- Claim C7: when a merged tensor named `layers.<i>.<field>` is
exported, the positioned write lands at
`headerOffset + tokenEmbeddingBytes + blockTotal*i + fieldOffset +
bytesAlreadyWritten`, and the bytes come from encoding with float32 for
the two norm fields and with the chosen target encoding for every other
field. -/
theorem claim_C7_layer_offset (c : ConvCtx) (hc : HeaderCtx)
    (st : ConvState) (name idxStr fieldName : String) (t : Tensor)
    (index layerSize layerOffset total : ℤ) (bytes : List ℕ) (n : ℤ)
    (hsplit : split2 name = ["layers", idxStr, fieldName])
    (hskip : dictGet st.progress name ≠ some (-1))
    (hparse : pyParseInt idxStr = some index)
    (hsz : pyGetItem hc.blockOffsets fieldName = .ok layerSize)
    (hoff : pyGetItem hc.blockOffsets (fieldName ++ "_offset") =
      .ok layerOffset)
    (htot : pyGetItem hc.blockOffsets "_total" = .ok total)
    (hexp : exportTensor c.pack4 c.pack2 c.half
      (if fieldName = "attention_norm.weight" ∨
          fieldName = "ffn_norm.weight" then "float32" else c.target)
      t.data = .ok (bytes, n)) :
    processName c hc st name t = .ok
      { writes := st.writes ++
          [(hc.headerOffset + c.tokenEmbeddingBytes + total * index +
            layerOffset + (dictGet st.progress name).getD 0, bytes)]
        progress := dictSet st.progress name
          (if (dictGet st.progress name).getD 0 + n = layerSize then -1
           else (dictGet st.progress name).getD 0 + n)
        lastLayerSize := some layerSize
        header := st.header } := by
  have hpb : ¬((dictGet st.progress name).getD 0 = -1) := by
    rw [getD_eq_neg_one_iff]
    exact hskip
  simp only [processName, hsplit]
  rw [if_neg hpb, if_pos (by simp)]
  simp only [hparse, List.head?, hsz, hoff, htot, hexp]
  simp [finishName]

/-! Concrete fixtures used by witnesses of the run-level claims. -/

/-- A fixed 4-byte packer standing in for float32 serialisation. -/
def exP4 : ℚ → List ℕ := fun _ => [0, 0, 0, 0]

/-- A fixed 2-byte packer standing in for float16 serialisation. -/
def exP2 : ℚ → List ℕ := fun _ => [0, 0]

/-- A minimal resolved params record: dim 1, one layer, one head. -/
def exParams : Params := ⟨1, 1, 1, 1, 1, 1, 2048⟩

/-- A matching per-run context with float32 target. -/
def exCtx : ConvCtx := ⟨exP4, exP2, exP2, "float32", exParams, 4, 4, 4⟩

/-- A matching header context (header 28 bytes, block total 36). -/
def exHeaderCtx : HeaderCtx :=
  ⟨28, [("feed_forward.w1.weight", 4),
        ("feed_forward.w1.weight_offset", 24), ("_total", 36)], 68, 8192⟩

/-- The empty run state. -/
def exState : ConvState := ⟨[], [], none, none⟩

/-- Claim C7, witness: exporting `layers.2.feed_forward.w1.weight` from
the empty state writes at `28 + 4 + 36*2 + 24 + 0 = 128` with the
target encoding, and completes the field exactly at its size. -/
theorem claim_C7_witness :
    processName exCtx exHeaderCtx exState "layers.2.feed_forward.w1.weight"
      ⟨[1], [0]⟩ =
      .ok ⟨[(128, [0, 0, 0, 0])],
        [("layers.2.feed_forward.w1.weight", -1)], some 4, none⟩ := by
  rw [claim_C7_layer_offset exCtx exHeaderCtx exState
    "layers.2.feed_forward.w1.weight" "2" "feed_forward.w1.weight"
    ⟨[1], [0]⟩ 2 4 24 36 [0, 0, 0, 0] 4
    (by decide) (by decide) (by decide) (by decide) (by decide)
    (by decide) (by decide)]
  with_unfolding_all decide

/-- Input params for a minimal run: dim 1, one layer, one head, vocab 1,
with a `max_seq_len` present in the file (and ignored by the code). -/
def exParamsIn : ParamsIn := ⟨1, 1, 1, some 1, 1, some 999⟩

/-- A shard carrying the mandatory w1 tensor plus an unknown per-layer
field name. -/
def exShardBogus : Model :=
  [("layers.0.feed_forward.w1.weight", ⟨[1, 1], [0]⟩),
   ("layers.0.bogus", ⟨[1], [0]⟩)]

/-- Claim C8, counterexample: the unrecognized per-layer name
`layers.0.bogus` is not of the form `layers.<i>.<known field>` and is
none of the four specials, yet the converter raises KeyError (from the
block-offset table lookup), not the `Unknown layer` exception the claim
requires. -/
theorem claim_C8_counterexample :
    convert exP4 exP2 exP2 exParamsIn "float32" [exShardBogus] =
      .error (.keyError "bogus") ∧
    ConvErr.keyError "bogus" ≠
      ConvErr.exception ("Unknown layer: " ++ "layers.0.bogus") := by
  constructor
  · with_unfolding_all decide
  · decide

/-- Claim C8 (amended): a tensor name whose first dot-separated
component is not `layers` and which is none of
`tok_embeddings.weight`, `norm.weight`, `rope.freqs`, `output.weight`
makes the tensor loop raise `Exception('Unknown layer: <name>')`
immediately, and the loop aborts there — the remaining tensors are never
processed, so no further writes happen.  (Names under `layers.` with an
unrecognized field die with KeyError instead; see the
counterexample.) -/
theorem claim_C8_unknown_layer (c : ConvCtx) (hc : HeaderCtx)
    (st : ConvState) (name : String) (t : Tensor)
    (rest : List (String × Tensor))
    (hl : (split2 name).headD "" ≠ "layers")
    (h1 : name ≠ "tok_embeddings.weight") (h2 : name ≠ "norm.weight")
    (h3 : name ≠ "rope.freqs") (h4 : name ≠ "output.weight")
    (hskip : dictGet st.progress name ≠ some (-1)) :
    processNames c hc st ((name, t) :: rest) =
      .error (.exception ("Unknown layer: " ++ name)) := by
  have hpb : ¬((dictGet st.progress name).getD 0 = -1) := by
    rw [getD_eq_neg_one_iff]
    exact hskip
  have hpn : processName c hc st name t =
      .error (.exception ("Unknown layer: " ++ name)) := by
    simp only [processName]
    rw [if_neg hpb, if_neg hl, if_neg h1, if_neg h2, if_neg h3, if_neg h4]
  simp only [processNames, hpn]

/-- Claim C8, witness: the unknown name `foo.bar` aborts the loop with
the `Unknown layer` exception even though further tensors are queued. -/
theorem claim_C8_witness :
    processNames exCtx exHeaderCtx exState
      [("foo.bar", ⟨[1], [0]⟩), ("norm.weight", ⟨[1], [0]⟩)] =
      .error (.exception ("Unknown layer: " ++ "foo.bar")) :=
  claim_C8_unknown_layer exCtx exHeaderCtx exState "foo.bar" ⟨[1], [0]⟩
    [("norm.weight", ⟨[1], [0]⟩)]
    (by decide) (by decide) (by decide) (by decide) (by decide) (by decide)

/-- Claim C5 (amended): per-name progress bookkeeping of the tensor
loop.  A name already at the `-1` completion sentinel is skipped without
any write or state change; otherwise a successful step either is the
`rope.freqs` immediate completion, or stores `old + n` for some
`n ≥ 0` (so progress never decreases), switching to the sentinel exactly
when `old + n` equals the expected total size `ls` of the branch taken:
`blockOffsets[field]` for a `layers.<i>.<field>` name,
`tokenEmbeddingBytes`, `rmsFinalBytes` and `wclsBytes` for the three
written specials.  No overshoot check exists: when `old + n` exceeds
that expected size the step still succeeds and stores the larger value
(see the counterexample). -/
theorem claim_C5_progress (c : ConvCtx) (hc : HeaderCtx) (st : ConvState)
    (name : String) (t : Tensor) (st' : ConvState)
    (h : processName c hc st name t = .ok st') :
    (dictGet st.progress name = some (-1) → st' = st) ∧
    (dictGet st.progress name ≠ some (-1) →
      (name = "rope.freqs" ∧ dictGet st'.progress name = some (-1)) ∨
      (∃ ls n, 0 ≤ n ∧
        ((∃ idxStr restT fieldName,
            split2 name = "layers" :: idxStr :: restT ∧
            restT.head? = some fieldName ∧
            pyGetItem hc.blockOffsets fieldName = .ok ls) ∨
         (name = "tok_embeddings.weight" ∧ ls = c.tokenEmbeddingBytes) ∨
         (name = "norm.weight" ∧ ls = c.rmsFinalBytes) ∨
         (name = "output.weight" ∧ ls = c.wclsBytes)) ∧
        dictGet st'.progress name =
          some (if (dictGet st.progress name).getD 0 + n = ls then -1
                else (dictGet st.progress name).getD 0 + n))) := by
  simp only [processName] at h
  by_cases hskip : (dictGet st.progress name).getD 0 = -1
  · rw [if_pos hskip] at h
    cases h
    exact ⟨fun _ => rfl,
      fun hne => absurd ((getD_eq_neg_one_iff _ _).mp hskip) hne⟩
  · rw [if_neg hskip] at h
    refine ⟨fun hsome =>
      absurd ((getD_eq_neg_one_iff _ _).mpr hsome) hskip, fun _ => ?_⟩
    split at h
    · -- layers dispatch
      rename_i hlayers
      split at h
      · -- split2 gave at least two components
        split at h
        · -- int() failed: ValueError
          cases h
        · -- index parsed
          split at h
          · -- no third component: IndexError
            cases h
          · -- field name present
            split at h
            · cases h
            · split at h
              · cases h
              · split at h
                · cases h
                · split at h
                  · cases h
                  · rename_i sc0 hd0 idxStr restT hsplit2 sc1 index hparse sc2 fieldName hhead sc3 layerSize hsz sc4 layerOffset hoff sc5 total htot sc6 bytes n hexp
                    cases h
                    have hhd : hd0 = "layers" := by
                      rw [hsplit2] at hlayers
                      simpa using hlayers
                    subst hhd
                    exact Or.inr ⟨layerSize, n, exportTensor_nonneg hexp,
                      Or.inl ⟨idxStr, restT, fieldName, hsplit2, hhead, hsz⟩,
                      by simp [finishName, dictGet_dictSet_self]⟩
      · -- split2 too short: IndexError
        cases h
    · -- not a layers name
      split at h
      · -- tok_embeddings.weight
        rename_i htok
        split at h
        · cases h
        · rename_i bytes n hexp
          cases h
          refine Or.inr ⟨c.tokenEmbeddingBytes, n,
            exportTensor_nonneg hexp, Or.inr (Or.inl ⟨htok, rfl⟩), ?_⟩
          simp [finishName, dictGet_dictSet_self]
      · split at h
        · -- norm.weight
          rename_i hnorm
          split at h
          · cases h
          · rename_i bytes n hexp
            cases h
            refine Or.inr ⟨c.rmsFinalBytes, n,
              exportTensor_nonneg hexp,
              Or.inr (Or.inr (Or.inl ⟨hnorm, rfl⟩)), ?_⟩
            simp [finishName, dictGet_dictSet_self]
        · split at h
          · -- rope.freqs
            rename_i hrope
            split at h
            · cases h
            · rename_i ls hls
              cases h
              refine Or.inl ⟨hrope, ?_⟩
              simp only [finishName, dictGet_dictSet_self]
              congr 1
              split <;> rfl
          · split at h
            · -- output.weight
              rename_i hout
              split at h
              · cases h
              · rename_i bytes n hexp
                cases h
                refine Or.inr ⟨c.wclsBytes, n,
                  exportTensor_nonneg hexp,
                  Or.inr (Or.inr (Or.inr ⟨hout, rfl⟩)), ?_⟩
                simp [finishName, dictGet_dictSet_self]
            · -- unknown name
              cases h

/-- A shard whose `tok_embeddings.weight` tensor carries more elements
than the layout expects (vocab_size*dim = 1). -/
def exShardOvershoot : Model :=
  [("layers.0.feed_forward.w1.weight", ⟨[1, 1], [0]⟩),
   ("tok_embeddings.weight", ⟨[2], [0, 0]⟩)]

/-- Claim C5, counterexample: the run writes 8 bytes for
`tok_embeddings.weight` although its expected size is
`getBytes(1*1, float32) = 4`, records progress `8 > 4`, and still
succeeds — the overshoot is neither prevented nor fatal. -/
theorem claim_C5_counterexample :
    (convert exP4 exP2 exP2 exParamsIn "float32" [exShardOvershoot]).map
      (fun r => dictGet r.progress "tok_embeddings.weight") =
      .ok (some 8) ∧
    getBytes ((1 : ℚ) * 1) "float32" = .ok 4 ∧ (4 : ℤ) < 8 := by
  refine ⟨?_, ?_, by decide⟩
  · with_unfolding_all decide
  · with_unfolding_all decide

/-- The state after exporting a 1-element `tok_embeddings.weight` from
the empty state: one write of 4 bytes at offset 28, completed. -/
def exStateTok : ConvState :=
  ⟨[(28, [0, 0, 0, 0])], [("tok_embeddings.weight", -1)], some 4, none⟩

/-- Claim C5, witness: the amended statement at a concrete
`tok_embeddings.weight` step from the empty state, where the branch's
expected size is `exCtx.tokenEmbeddingBytes`. -/
theorem claim_C5_witness :
    (dictGet exState.progress "tok_embeddings.weight" = some (-1) →
      exStateTok = exState) ∧
    (dictGet exState.progress "tok_embeddings.weight" ≠ some (-1) →
      ("tok_embeddings.weight" = "rope.freqs" ∧
        dictGet exStateTok.progress "tok_embeddings.weight" = some (-1)) ∨
      (∃ ls n, 0 ≤ n ∧
        ((∃ idxStr restT fieldName,
            split2 "tok_embeddings.weight" = "layers" :: idxStr :: restT ∧
            restT.head? = some fieldName ∧
            pyGetItem exHeaderCtx.blockOffsets fieldName = .ok ls) ∨
         ("tok_embeddings.weight" = "tok_embeddings.weight" ∧
            ls = exCtx.tokenEmbeddingBytes) ∨
         ("tok_embeddings.weight" = "norm.weight" ∧
            ls = exCtx.rmsFinalBytes) ∨
         ("tok_embeddings.weight" = "output.weight" ∧
            ls = exCtx.wclsBytes)) ∧
        dictGet exStateTok.progress "tok_embeddings.weight" =
          some (if (dictGet exState.progress
                  "tok_embeddings.weight").getD 0 + n = ls then -1
                else (dictGet exState.progress
                  "tok_embeddings.weight").getD 0 + n))) :=
  claim_C5_progress exCtx exHeaderCtx exState "tok_embeddings.weight"
    ⟨[1], [0]⟩ exStateTok (by with_unfolding_all decide)

/-- One tensor step never touches the header context and only appends
writes. -/
theorem processName_frame {c : ConvCtx} {hc : HeaderCtx} {st : ConvState}
    {name : String} {t : Tensor} {st' : ConvState}
    (h : processName c hc st name t = .ok st') :
    st'.header = st.header ∧ ∃ tl, st'.writes = st.writes ++ tl := by
  simp only [processName] at h
  by_cases hskip : (dictGet st.progress name).getD 0 = -1
  · rw [if_pos hskip] at h
    cases h
    exact ⟨rfl, [], by simp⟩
  · rw [if_neg hskip] at h
    repeat' split at h
    all_goals cases h
    all_goals exact ⟨rfl, _, rfl⟩

/-- The tensor loop never touches the header context and only appends
writes. -/
theorem processNames_frame {c : ConvCtx} {hc : HeaderCtx} :
    ∀ {l : List (String × Tensor)} {st st' : ConvState},
    processNames c hc st l = .ok st' →
    st'.header = st.header ∧ ∃ tl, st'.writes = st.writes ++ tl := by
  intro l
  induction l with
  | nil =>
    intro st st' h
    simp only [processNames] at h
    cases h
    exact ⟨rfl, [], by simp⟩
  | cons p rest ih =>
    intro st st' h
    obtain ⟨name, t⟩ := p
    simp only [processNames] at h
    cases hp : processName c hc st name t with
    | error e => rw [hp] at h; cases h
    | ok st1 =>
      rw [hp] at h
      dsimp only at h
      obtain ⟨hh1, tl1, hw1⟩ := processName_frame hp
      obtain ⟨hh2, tl2, hw2⟩ := ih h
      refine ⟨hh2.trans hh1, tl1 ++ tl2, ?_⟩
      rw [hw2, hw1, List.append_assoc]

/-- A shard processed after the header exists keeps the header context
and only appends writes. -/
theorem processShard_some_frame {c : ConvCtx} {st st' : ConvState}
    {shard : Model} {hc0 : HeaderCtx} (hh : st.header = some hc0)
    (h : processShard c st shard = .ok st') :
    st'.header = some hc0 ∧ ∃ tl, st'.writes = st.writes ++ tl := by
  simp only [processShard] at h
  cases htd : toDict [shard] with
  | error e => rw [htd] at h; cases h
  | ok md =>
    rw [htd] at h
    obtain ⟨modelDict, _⟩ := md
    dsimp only at h
    rw [hh] at h
    obtain ⟨hh2, tl, hw⟩ := processNames_frame h
    exact ⟨hh2.trans hh, tl, hw⟩

/-- The shard loop, started with the header in place, keeps it and only
appends writes. -/
theorem processShards_some_frame {c : ConvCtx} :
    ∀ {shards : List Model} {st st' : ConvState} {hc0 : HeaderCtx},
    st.header = some hc0 → processShards c st shards = .ok st' →
    st'.header = some hc0 ∧ ∃ tl, st'.writes = st.writes ++ tl := by
  intro shards
  induction shards with
  | nil =>
    intro st st' hc0 hh h
    simp only [processShards] at h
    cases h
    exact ⟨hh, [], by simp⟩
  | cons s rest ih =>
    intro st st' hc0 hh h
    simp only [processShards] at h
    cases hp : processShard c st s with
    | error e => rw [hp] at h; cases h
    | ok st1 =>
      rw [hp] at h
      dsimp only at h
      obtain ⟨hh1, tl1, hw1⟩ := processShard_some_frame hh hp
      obtain ⟨hh2, tl2, hw2⟩ := ih hh1 h
      refine ⟨hh2, tl1 ++ tl2, ?_⟩
      rw [hw2, hw1, List.append_assoc]

theorem resolveParams_fields {pin : ParamsIn} {p : Params}
    (h : resolveParams pin = .ok p) :
    p.max_seq_len = 2048 ∧
    p.head_size = (pin.dim : ℚ) / (pin.n_heads : ℚ) := by
  unfold resolveParams at h
  split at h
  · cases h
  · cases h
    exact ⟨rfl, rfl⟩

theorem ropeBytesCalc_eq (p : Params) :
    ropeBytesCalc p =
      .ok (ratTrunc ((p.max_seq_len : ℚ) * p.head_size / 2 * 4) * 2) := by
  simp [ropeBytesCalc, getBytes]

/-- Claim C10: `convert` overwrites `max_seq_len` with the constant 2048
before writing the header, so whenever a run succeeds on at least one
shard, the resolved params carry `max_seq_len = 2048` whatever the
params file said, the first write is the header whose seventh integer is
2048, and the rope reservation is computed from 2048 (and from
`head_size = dim / n_heads`). -/
theorem claim_C10_max_seq_len (pack4 pack2 half : ℚ → List ℕ)
    (pin : ParamsIn) (target : String) (s : Model) (rest : List Model)
    (r : ConvResult)
    (hrun : convert pack4 pack2 half pin target (s :: rest) = .ok r) :
    ∃ p hiddenDim tl,
      resolveParams pin = .ok p ∧
      p.max_seq_len = 2048 ∧
      (headerInts p hiddenDim).getD 6 0 = 2048 ∧
      r.writes = (0, writeHeader p hiddenDim) :: tl ∧
      r.ropeBytes = some
        (ratTrunc ((2048 : ℚ) *
          ((pin.dim : ℚ) / (pin.n_heads : ℚ)) / 2 * 4) * 2) := by
  simp only [convert] at hrun
  split at hrun
  · cases hrun
  · rename_i p hp
    obtain ⟨hmax, hhead⟩ := resolveParams_fields hp
    split at hrun
    · cases hrun
    · rename_i teb hteb
      split at hrun
      · cases hrun
      · rename_i rfb hrfb
        split at hrun
        · cases hrun
        · rename_i wcb hwcb
          split at hrun
          · cases hrun
          · rename_i stF hstF
            cases hrun
            simp only [processShards] at hstF
            split at hstF
            · cases hstF
            · rename_i st1 hps
              simp only [processShard] at hps
              split at hps
              · cases hps
              · rename_i modelDict msnd htd
                split at hps
                · cases hps
                · rename_i w1 hw1
                  split at hps
                  · cases hps
                  · rename_i h0 hh0
                    split at hps
                    · cases hps
                    · rename_i bo hbo
                      split at hps
                      · cases hps
                      · rename_i total htotal
                        split at hps
                        · cases hps
                        · rename_i rb hrb
                          rw [ropeBytesCalc_eq] at hrb
                          cases hrb
                          obtain ⟨hh1, tl1, hw1s⟩ := processNames_frame hps
                          obtain ⟨hhF, tl2, hw2s⟩ :=
                            processShards_some_frame hh1 hstF
                          refine ⟨p, (h0 : ℤ), tl1 ++ tl2, hp, hmax,
                            by simp [headerInts, hmax], ?_, ?_⟩
                          · dsimp only at hw1s hw2s
                            rw [hw2s, hw1s]
                            simp
                          · rw [hhF]
                            dsimp only
                            rw [hmax, hhead]
                            norm_num

/-- A minimal single-tensor shard carrying only the mandatory w1. -/
def exShardW1 : Model := [("layers.0.feed_forward.w1.weight", ⟨[1, 1], [0]⟩)]

/-- The observable result of converting `exShardW1` under `exParamsIn`:
header at offset 0 (seventh integer 2048, not the 999 from the params
file), one tensor write, rope reservation 8192. -/
def exResultW1 : ConvResult :=
  ⟨[(0, [1, 0, 0, 0, 1, 0, 0, 0, 1, 0, 0, 0, 1, 0, 0, 0, 1, 0, 0, 0,
      1, 0, 0, 0, 0, 8, 0, 0]), (56, [0, 0, 0, 0])],
   [("layers.0.feed_forward.w1.weight", -1)], some 8192⟩

/-- The concrete run used by the C10 witness evaluates to
`exResultW1`. -/
theorem exRunW1_eq :
    convert exP4 exP2 exP2 exParamsIn "float32" [exShardW1] =
      .ok exResultW1 := by
  with_unfolding_all rfl

/-- Claim C10, witness: the theorem applied to a concrete run whose
params file says `max_seq_len = 999`. -/
theorem claim_C10_witness :
    ∃ p hiddenDim tl,
      resolveParams exParamsIn = .ok p ∧
      p.max_seq_len = 2048 ∧
      (headerInts p hiddenDim).getD 6 0 = 2048 ∧
      exResultW1.writes = (0, writeHeader p hiddenDim) :: tl ∧
      exResultW1.ropeBytes = some
        (ratTrunc ((2048 : ℚ) *
          ((exParamsIn.dim : ℚ) / (exParamsIn.n_heads : ℚ)) / 2 * 4) * 2) :=
  claim_C10_max_seq_len exP4 exP2 exP2 exParamsIn "float32" exShardW1 []
    exResultW1 exRunW1_eq

end Converter
